import Mathlib

/-!
# Verification of `algo-vanity-rs` (src/src/main.rs)

A shallow embedding of the concurrent vanity-address searcher:
the matcher (`find_vanity`), the aggregator loop (`thread_main_loop`),
the worker seed-perturbation loop (`thread_worker`), the persistence
thread (`thread_file_handler`) and the startup/validation phase of `main`.
Strings are modelled as `List Char`, `f32` arithmetic as `ℚ`, `u8`
arithmetic as `ℕ` reduced `% 256`, and fallible I/O as oracle parameters.
-/

namespace AlgoVanity

/-- `COUNT_PER_LOOP` from main.rs: per-thread account checks between
notifications of the main thread. -/
def COUNT_PER_LOOP : Nat := 100

/-- `MAX_THREADS` from main.rs: maximum number of threads before stopping user. -/
def MAX_THREADS : Nat := 128

/-- `DEFAULT_THREADS` from main.rs: default number of threads if auto detect fails. -/
def DEFAULT_THREADS : Nat := 4

/-- `Placement` enum from main.rs: placement of a matched string pattern. -/
inductive Placement
  | Start
  | Anywhere (offset : Nat)
  | End
  deriving DecidableEq, Repr

/-- `AddressMatch` struct from main.rs: an address that matched a vanity string. -/
structure AddressMatch where
  target : List Char
  public : List Char
  mnemonic : List Char
  placement : Placement
  deriving DecidableEq, Repr

/-- `SearchPlacement` struct from main.rs: places to search in addresses.
The Rust field `end` is a Lean keyword, rendered `end_`. -/
structure SearchPlacement where
  start : Bool
  anywhere : Bool
  end_ : Bool
  deriving DecidableEq, Repr

/-- An Algorand `Account` at the boundary of this model: the opaque
KeyProvider yields its encoded address string and its mnemonic
(`acc.address().encode_string()` and `acc.mnemonic()` in main.rs). -/
structure Account where
  address : List Char
  mnemonic : List Char
  deriving DecidableEq, Repr

/-- Rust `str::starts_with`: `startsWith s t` holds when `t` is an initial
segment of `s`. -/
def startsWith : List Char → List Char → Bool
  | _, [] => true
  | [], _ :: _ => false
  | c :: s, d :: t => c = d && startsWith s t

/-- Rust `str::ends_with`: `t` is a final segment of `s`. -/
def endsWith (s t : List Char) : Bool :=
  startsWith s.reverse t.reverse

/-- Rust `str::find`: index of the first (lowest-index) occurrence of `t`
as a contiguous substring of `s`, or `none`. -/
def findSub : List Char → List Char → Option Nat
  | [], t => if startsWith [] t then some 0 else none
  | c :: s, t =>
      if startsWith (c :: s) t then some 0
      else (findSub s t).map (· + 1)

/-- `t` occurs in `s` at index `i`: the substring of `s` starting at `i`
begins with `t`. -/
def occursAt (s t : List Char) (i : Nat) : Bool :=
  startsWith (s.drop i) t

/-- The per-target body of `find_vanity` (main.rs lines 384–427): emit a
`Start` match if enabled and the address starts with the target, an `End`
match if enabled and the address ends with the target, and only if neither
fired (`matched_start_end = false`), an `Anywhere` match at the first
occurrence index when enabled. The returned list holds the messages sent,
in sending order. -/
def matchTarget (placement : SearchPlacement) (acc : Account) (target : List Char) :
    List AddressMatch :=
  let s := placement.start && startsWith acc.address target
  let e := placement.end_ && endsWith acc.address target
  (if s then [⟨target, acc.address, acc.mnemonic, Placement.Start⟩] else []) ++
  (if e then [⟨target, acc.address, acc.mnemonic, Placement.End⟩] else []) ++
  (if !(s || e) && placement.anywhere then
    match findSub acc.address target with
    | some index => [⟨target, acc.address, acc.mnemonic, Placement.Anywhere index⟩]
    | none => []
  else [])

/-- `find_vanity` from main.rs: test one candidate account against every
vanity target; the result is the list of `AddressMatch` messages sent on
the worker channel, in order. -/
def find_vanity (vanity_targets : List (List Char)) (acc : Account)
    (placement : SearchPlacement) : List AddressMatch :=
  vanity_targets.flatMap (matchTarget placement acc)

/-! ## Aggregator: `thread_main_loop` -/

/-- `WorkerMsg` enum from main.rs: messages worker threads send to the main
loop. A `Duration` is modelled as its length in seconds, a rational. -/
inductive WorkerMsg
  | addressMatch (m : AddressMatch)
  | count (id : Nat) (elapsed : ℚ)

/-- The state owned by `thread_main_loop` (main.rs lines 224–227), together
with the streams it emits: `persisted` records the `AddressMatch` values
sent on `tx_address_match` (in order) and `keepAlive` the shared atomic
flag. `f32` values are modelled as rationals. -/
structure AggState where
  totalCount : Nat
  matchCount : Nat
  searchRate : ℚ
  rates : List ℚ
  targets : List (List Char)
  keepAlive : Bool
  persisted : List AddressMatch
  deriving DecidableEq

/-- Initial state of `thread_main_loop`: zero counters, per-worker rates all
zero, the validated vanity targets, the keep-alive flag true, nothing yet
forwarded to persistence. -/
def initAgg (vanity_targets : List (List Char)) (num_threads : Nat) : AggState :=
  ⟨0, 0, 0, List.replicate num_threads 0, vanity_targets, true, []⟩

/-- The exponential smoothing step applied to the search rate on every count
event (main.rs line 262): `search_rate*0.95 + instantaneous*0.05`. -/
def lpFilter (prev instantaneous : ℚ) : ℚ :=
  prev * (95 / 100) + instantaneous * (5 / 100)

/-- Rust `Iterator::position(|r| r == target)`: index of the first element
equal to `target`. -/
def positionOf : List (List Char) → List Char → Option Nat
  | [], _ => none
  | a :: l, t => if a = t then some 0 else (positionOf l t).map (· + 1)

/-- Rust `Vec::remove(index)` restricted to its effect on the element list. -/
def removeAt : List (List Char) → Nat → List (List Char)
  | [], _ => []
  | _ :: l, 0 => l
  | a :: l, n + 1 => a :: removeAt l n

/-- The nested `transmit_match` helper of `thread_main_loop` (main.rs lines
237–241): increment the match count and forward the match to the file
handler. -/
def transmit_match (s : AggState) (m : AddressMatch) : AggState :=
  { s with matchCount := s.matchCount + 1, persisted := s.persisted ++ [m] }

/-- One iteration of the `thread_main_loop` message handler (main.rs lines
232–266). A match event in once-mode is accepted only when its target is
still in `targets`; acceptance removes the target and, if the list empties,
clears `keepAlive`. A count event adds `COUNT_PER_LOOP²` to the total,
refreshes that worker's instantaneous rate and low-pass filters the summed
rate. -/
def mainLoopStep (find_only_once : Bool) (s : AggState) : WorkerMsg → AggState
  | .addressMatch m =>
      if find_only_once then
        match positionOf s.targets m.target with
        | some index =>
            let s' := transmit_match s m
            let s'' := { s' with targets := removeAt s'.targets index }
            if s''.targets = [] then { s'' with keepAlive := false } else s''
        | none => s
      else transmit_match s m
  | .count id elapsed =>
      let rates' := s.rates.set id ((COUNT_PER_LOOP * COUNT_PER_LOOP : Nat) / elapsed)
      { s with
        totalCount := s.totalCount + COUNT_PER_LOOP * COUNT_PER_LOOP,
        rates := rates',
        searchRate := lpFilter s.searchRate rates'.sum }

/-- The receive loop of `thread_main_loop`: process queued messages in order
while the keep-alive flag is still set; once clear, remaining messages are
never received. -/
def mainLoopRun (find_only_once : Bool) (s : AggState) : List WorkerMsg → AggState
  | [] => s
  | msg :: rest =>
      if s.keepAlive then mainLoopRun find_only_once (mainLoopStep find_only_once s msg) rest
      else s

/-- The smoothed search rate after `n` count events whose summed
instantaneous rate is the constant 1000, starting from the initial value 0
of `thread_main_loop` (main.rs line 226). -/
def smoothedAfter : Nat → ℚ
  | 0 => 0
  | n + 1 => lpFilter (smoothedAfter n) 1000

/-- How many of the matches forwarded to persistence are for target `t`. -/
def countTarget (t : List Char) (l : List AddressMatch) : Nat :=
  (l.filter (fun m => m.target = t)).length

/-- The once-mode aggregator invariant, relative to the initial target list:
the match count equals the number of persisted matches, the active list
stays duplicate-free and inside the initial list, no target is persisted
twice, a still-active target is not yet persisted, and a target never
configured is never persisted. -/
def OnceInv (initial : List (List Char)) (s : AggState) : Prop :=
  s.matchCount = s.persisted.length ∧
  s.targets.Nodup ∧
  (∀ t, t ∈ s.targets → t ∈ initial) ∧
  (∀ t, countTarget t s.persisted ≤ 1) ∧
  (∀ t, t ∈ s.targets → countTarget t s.persisted = 0) ∧
  (∀ t, t ∉ initial → countTarget t s.persisted = 0)

/-! ## Worker: `thread_worker` -/

/-- Rust `seed[i] = seed[i].wrapping_add(1)`: bump one byte of the 32-byte
seed, wrapping modulo 256. Bytes are naturals kept below 256 by the
reduction. -/
def bumpAt (s : Fin 32 → Nat) (i : Fin 32) : Fin 32 → Nat :=
  fun k => if k = i then (s k + 1) % 256 else s k

/-- One outer iteration of the per-cycle perturbation loop of
`thread_worker` (main.rs lines 294–301): bump byte `index0` once, then bump
byte `index1` once per inner iteration, `COUNT_PER_LOOP` times. -/
def outerStepSeed (index0 index1 : Fin 32) (s : Fin 32 → Nat) : Fin 32 → Nat :=
  (fun t => bumpAt t index1)^[COUNT_PER_LOOP] (bumpAt s index0)

/-- The seed passed to `Account::from_seed` at inner step `j` of outer step
`o` of a reseed cycle (both zero-based): the state after `o` full outer
iterations, one more `index0` bump, and `j+1` bumps of `index1`. -/
def usedSeedAt (s : Fin 32 → Nat) (index0 index1 : Fin 32) (o j : Nat) : Fin 32 → Nat :=
  (fun t => bumpAt t index1)^[j + 1] (bumpAt ((outerStepSeed index0 index1)^[o] s) index0)

/-- Closed form of a seed used during one reseed cycle: byte `index0` has
been bumped `o+1` times, byte `index1` has been bumped `o*COUNT_PER_LOOP +
j + 1` times, and when the two indices coincide the bumps accumulate on the
same byte. -/
def usedSeedFormula (s : Fin 32 → Nat) (index0 index1 : Fin 32) (o j : Nat) : Fin 32 → Nat :=
  fun k =>
    (s k + (if k = index0 then o + 1 else 0) +
      (if k = index1 then o * COUNT_PER_LOOP + j + 1 else 0)) % 256

/-- The inner `for` loop of `thread_worker` restricted to its observable
output: bump byte `index1`, derive the account from the perturbed seed via
the opaque KeyProvider `key`, and collect the `find_vanity` messages, `n`
times. Returns the final seed state and the messages in sending order. -/
def innerIter (index1 : Fin 32) (key : (Fin 32 → Nat) → Account)
    (targets : List (List Char)) (placement : SearchPlacement) :
    Nat → (Fin 32 → Nat) → ((Fin 32 → Nat) × List AddressMatch)
  | 0, st => (st, [])
  | n + 1, st =>
      let st' := bumpAt st index1
      let evs := find_vanity targets (key st') placement
      let r := innerIter index1 key targets placement n st'
      (r.1, evs ++ r.2)

/-- The outer `for` loop of `thread_worker`: bump byte `index0`, run the
inner loop `COUNT_PER_LOOP` times, and continue, `n` times. -/
def outerIter (index0 index1 : Fin 32) (key : (Fin 32 → Nat) → Account)
    (targets : List (List Char)) (placement : SearchPlacement) :
    Nat → (Fin 32 → Nat) → ((Fin 32 → Nat) × List AddressMatch)
  | 0, st => (st, [])
  | n + 1, st =>
      let st1 := bumpAt st index0
      let r1 := innerIter index1 key targets placement COUNT_PER_LOOP st1
      let r2 := outerIter index0 index1 key targets placement n r1.1
      (r2.1, r1.2 ++ r2.2)

/-- The fresh per-cycle randomness drawn at the top of each reseed cycle of
`thread_worker` (main.rs lines 291–293): a full 32-byte seed and the two
perturbation indices. -/
structure CycleInput where
  seed : Fin 32 → Nat
  index0 : Fin 32
  index1 : Fin 32

/-- One full reseed cycle of `thread_worker`: the match messages it emits,
testing every one of the `COUNT_PER_LOOP²` perturbed seeds against the
target list the thread received at spawn time. -/
def workerCycle (key : (Fin 32 → Nat) → Account) (targets : List (List Char))
    (placement : SearchPlacement) (inp : CycleInput) : List AddressMatch :=
  (outerIter inp.index0 inp.index1 key targets placement COUNT_PER_LOOP inp.seed).2

/-- The worker loop across reseed cycles (main.rs lines 282–307): the
`vanity_targets` vector is cloned once in `main` (line 175), moved into the
thread, and never written again, so every cycle matches against the same
list; only the seed randomness is fresh per cycle. -/
def workerRun (key : (Fin 32 → Nat) → Account) (targets : List (List Char))
    (placement : SearchPlacement) (cycles : List CycleInput) : List (List AddressMatch) :=
  cycles.map (workerCycle key targets placement)

/-! ## Persistence: `thread_file_handler` -/

/-- Outcome of the startup load of `thread_file_handler` (main.rs lines
356–362). `panicked` is an `expect` firing: the thread dies and the run can
never persist another match. -/
inductive LoadResult
  | loaded (records : List AddressMatch)
  | panicked
  deriving DecidableEq

/-- Startup of `thread_file_handler`, with I/O outcomes as oracles:
`openResult` is `none` when `File::open` fails, `some none` when the file
opens but does not parse as a record array, and `some (some records)` on
success; `createOk` and `writeOk` are the outcomes of creating and
initializing a fresh file. A parse failure panics (`expect("Unable to parse
existing file")`); so does a failure to create or initialize a fresh file. -/
def loadRecords : Option (Option (List AddressMatch)) → Bool → Bool → LoadResult
  | some (some records), _, _ => .loaded records
  | some none, _, _ => .panicked
  | none, createOk, writeOk =>
      if createOk then (if writeOk then .loaded [] else .panicked) else .panicked

/-- Outcome of one rewrite attempt in the receive loop of
`thread_file_handler`. -/
inductive RewriteResult
  | wrote
  | skippedSilently
  | panicked
  deriving DecidableEq

/-- One rewrite attempt (main.rs lines 370–373): if
`serde_json::to_string_pretty` fails the `if let Ok` silently skips the
write and the loop continues; if it succeeds, a failing `File::create` or a
failing `write!` panics the thread via `expect`. `serOk`, `createOk`,
`writeOk` are the oracle outcomes of those three operations. -/
def rewriteRecords (serOk createOk writeOk : Bool) : RewriteResult :=
  if serOk then
    if createOk then
      if writeOk then .wrote else .panicked
    else .panicked
  else .skippedSilently

/-! ## Startup: the validation phase of `main` -/

/-- The allowed Algorand address alphabet (main.rs line 148). -/
def allowedChars : List Char := "ABCDEFGHIJKLMNOPQRSTUVWXYZ234567".toList

/-- How the startup phase of `main` (lines 111–155) ends. `exit code` is the
process exit status: every error path is a bare `return` from `fn main()`,
so the process reports status 0. `launch` carries the configuration with
which the worker, aggregator, printer and file-handler threads are then
spawned (lines 163–199). `panicked` is the unreachable `expect` on an empty
clap-validated pattern vector. -/
inductive StartupOutcome
  | exit (code : Nat)
  | launch (numThreads : Nat) (patterns : List (List Char))
      (placement : SearchPlacement) (once : Bool)
  | panicked
  deriving DecidableEq

/-- The startup phase of `main` (main.rs lines 111–155), with the
filesystem as an oracle: `fs p` is `none` when `File::open p` fails,
`some none` when the file opens but is not a JSON array of strings, and
`some (some l)` when it parses to `l`. In order: reject a requested thread
count at or above `MAX_THREADS`; resolve the thread count; default the
placement to start-only; try the first pattern argument as a file and, on
success, replace the whole pattern list; uppercase; reject any pattern
containing a character outside `allowedChars`. -/
def badThreadCount : Option Nat → Bool
  | some t => MAX_THREADS ≤ t
  | none => false

/-- The uppercasing pass of `main` (line 144): `s.to_uppercase()` on every
pattern. -/
def upperAll (patterns : List (List Char)) : List (List Char) :=
  patterns.map (List.map Char.toUpper)

/-- The character-validation pass of `main` (lines 146–155): every character
of every pattern must be in the Algorand address alphabet. -/
def validPatterns (patterns : List (List Char)) : Bool :=
  patterns.all (fun v => v.all (allowedChars.contains ·))

/-- The startup phase of `main`, continued: `badThreadCount` models the
guard `if let Some(t @ MAX_THREADS..) = args.threads` (main.rs line 116)
and `mainStartup` the whole validation sequence. -/
def mainStartup (threadsArg : Option Nat) (availPar : Option Nat)
    (vanities : List (List Char)) (startArg anywhereArg endArg onceArg : Bool)
    (fs : List Char → Option (Option (List (List Char)))) : StartupOutcome :=
  if badThreadCount threadsArg then .exit 0
  else
    let numThreads := threadsArg.getD (availPar.getD DEFAULT_THREADS)
    let startFlag := if !(startArg || anywhereArg || endArg) then true else startArg
    let placement : SearchPlacement := ⟨startFlag, anywhereArg, endArg⟩
    match vanities with
    | [] => .panicked
    | first :: _ =>
        let afterFile : Option (List (List Char)) :=
          match fs first with
          | some (some fromFile) => some fromFile
          | some none => none
          | none => some vanities
        match afterFile with
        | none => .exit 0
        | some vs =>
            let patterns := upperAll vs
            if validPatterns patterns then
              .launch numThreads patterns placement onceArg
            else .exit 0

/-- The pattern list a startup outcome launches the threads with, when it
launches at all. -/
def outcomePatterns : StartupOutcome → Option (List (List Char))
  | .launch _ patterns _ _ => some patterns
  | _ => none

/-! ## Sanity checks of the matcher on concrete candidates -/

example :
    find_vanity [['A', 'B']] ⟨['A', 'B', 'C', 'A', 'B'], ['m']⟩ ⟨true, true, true⟩ =
      [⟨['A', 'B'], ['A', 'B', 'C', 'A', 'B'], ['m'], Placement.Start⟩,
       ⟨['A', 'B'], ['A', 'B', 'C', 'A', 'B'], ['m'], Placement.End⟩] := by decide

example :
    find_vanity [['C', 'A']] ⟨['A', 'B', 'C', 'A', 'B'], ['m']⟩ ⟨true, true, true⟩ =
      [⟨['C', 'A'], ['A', 'B', 'C', 'A', 'B'], ['m'], Placement.Anywhere 2⟩] := by decide

/-! ## The matcher characterization (claim C2) -/

lemma occursAt_cons_succ (c : Char) (s t : List Char) (j : Nat) :
    occursAt (c :: s) t (j + 1) = occursAt s t j := rfl

lemma findSub_some_occurs :
    ∀ (s t : List Char) (i : Nat), findSub s t = some i → occursAt s t i = true := by
  intro s
  induction s with
  | nil =>
      intro t i h
      unfold findSub at h
      by_cases hs : startsWith [] t = true
      · simp [hs] at h
        subst h
        exact hs
      · simp [hs] at h
  | cons c s ih =>
      intro t i h
      unfold findSub at h
      by_cases hs : startsWith (c :: s) t = true
      · simp [hs] at h
        subst h
        exact hs
      · simp [hs] at h
        obtain ⟨i', hi', rfl⟩ := h
        exact ih t i' hi'

lemma findSub_some_least :
    ∀ (s t : List Char) (i : Nat), findSub s t = some i →
      ∀ j < i, occursAt s t j = false := by
  intro s
  induction s with
  | nil =>
      intro t i h j hj
      unfold findSub at h
      by_cases hs : startsWith [] t = true
      · simp [hs] at h
        omega
      · simp [hs] at h
  | cons c s ih =>
      intro t i h j hj
      unfold findSub at h
      by_cases hs : startsWith (c :: s) t = true
      · simp [hs] at h
        omega
      · simp [hs] at h
        obtain ⟨i', hi', rfl⟩ := h
        cases j with
        | zero =>
            simpa [occursAt] using Bool.eq_false_iff.mpr (fun hc => hs hc)
        | succ j' =>
            rw [occursAt_cons_succ]
            exact ih t i' hi' j' (by omega)

lemma occurs_findSub_le :
    ∀ (s t : List Char) (j : Nat), occursAt s t j = true →
      ∃ i, i ≤ j ∧ findSub s t = some i := by
  intro s
  induction s with
  | nil =>
      intro t j h
      have hs : startsWith [] t = true := by
        unfold occursAt at h
        simpa using h
      exact ⟨0, Nat.zero_le j, by simp [findSub, hs]⟩
  | cons c s ih =>
      intro t j h
      by_cases hs : startsWith (c :: s) t = true
      · exact ⟨0, Nat.zero_le j, by simp [findSub, hs]⟩
      · cases j with
        | zero => exact absurd h hs
        | succ j' =>
            rw [occursAt_cons_succ] at h
            obtain ⟨i', hle, hfind⟩ := ih t j' h
            refine ⟨i' + 1, by omega, ?_⟩
            simp [findSub, hs, hfind]

/-- `findSub` returns exactly the lowest occurrence index. -/
lemma findSub_eq_some_iff (s t : List Char) (i : Nat) :
    findSub s t = some i ↔
      (occursAt s t i = true ∧ ∀ j < i, occursAt s t j = false) := by
  constructor
  · intro h
    exact ⟨findSub_some_occurs s t i h, findSub_some_least s t i h⟩
  · rintro ⟨hocc, hleast⟩
    obtain ⟨i', hle, hfind⟩ := occurs_findSub_le s t i hocc
    rcases Nat.lt_or_ge i' i with hlt | hge
    · have := hleast i' hlt
      rw [findSub_some_occurs s t i' hfind] at this
      exact absurd this (by simp)
    · have : i' = i := by omega
      rw [← this]
      exact hfind

/-- Exactly which messages `matchTarget` emits for one target: a `Start`
match when enabled and prefixed, an `End` match when enabled and suffixed,
and an `Anywhere` match at the `findSub` index when neither fired and the
anywhere flag is set. -/
lemma mem_matchTarget (placement : SearchPlacement) (acc : Account) (tg : List Char)
    (m : AddressMatch) :
    m ∈ matchTarget placement acc tg ↔
      ((placement.start && startsWith acc.address tg) = true ∧
        m = ⟨tg, acc.address, acc.mnemonic, .Start⟩) ∨
      ((placement.end_ && endsWith acc.address tg) = true ∧
        m = ⟨tg, acc.address, acc.mnemonic, .End⟩) ∨
      (∃ i, (placement.start && startsWith acc.address tg) = false ∧
        (placement.end_ && endsWith acc.address tg) = false ∧
        placement.anywhere = true ∧
        findSub acc.address tg = some i ∧
        m = ⟨tg, acc.address, acc.mnemonic, .Anywhere i⟩) := by
  by_cases hs : (placement.start && startsWith acc.address tg) = true <;>
    by_cases he : (placement.end_ && endsWith acc.address tg) = true <;>
      by_cases ha : placement.anywhere = true <;>
        cases hf : findSub acc.address tg <;>
          simp [matchTarget, hs, he, ha, hf, List.mem_append]

/-- C2: for every address, target list and placement flags the matcher
emits, per target `t`, independently: a `Start` event iff the start flag is
set and the address starts with `t`; an `End` event iff the end flag is set
and the address ends with `t` (both may hold at once); an `Anywhere i`
event iff neither of those checks fired, the anywhere flag is set, and `t`
occurs in the address with `i` its lowest occurrence index; and nothing
else — every emitted event names a listed target and carries this
candidate's address and mnemonic. -/
theorem C2_theorem (targets : List (List Char)) (acc : Account)
    (placement : SearchPlacement) (t : List Char) (i : Nat) :
    ((⟨t, acc.address, acc.mnemonic, .Start⟩ : AddressMatch) ∈
        find_vanity targets acc placement ↔
      t ∈ targets ∧ placement.start = true ∧ startsWith acc.address t = true) ∧
    ((⟨t, acc.address, acc.mnemonic, .End⟩ : AddressMatch) ∈
        find_vanity targets acc placement ↔
      t ∈ targets ∧ placement.end_ = true ∧ endsWith acc.address t = true) ∧
    ((⟨t, acc.address, acc.mnemonic, .Anywhere i⟩ : AddressMatch) ∈
        find_vanity targets acc placement ↔
      t ∈ targets ∧
      (placement.start && startsWith acc.address t) = false ∧
      (placement.end_ && endsWith acc.address t) = false ∧
      placement.anywhere = true ∧
      occursAt acc.address t i = true ∧ ∀ j < i, occursAt acc.address t j = false) ∧
    (∀ m ∈ find_vanity targets acc placement,
      m.target ∈ targets ∧ m.public = acc.address ∧ m.mnemonic = acc.mnemonic) := by
  refine ⟨?_, ?_, ?_, ?_⟩
  · constructor
    · intro hm
      rw [find_vanity, List.mem_flatMap] at hm
      obtain ⟨tg, htg, hmem⟩ := hm
      rw [mem_matchTarget] at hmem
      rcases hmem with ⟨hc, heq⟩ | ⟨hc, heq⟩ | ⟨i', h1, h2, h3, h4, heq⟩ <;>
        simp only [AddressMatch.mk.injEq] at heq
      · obtain ⟨rfl, -, -, -⟩ := heq
        rw [Bool.and_eq_true] at hc
        exact ⟨htg, hc.1, hc.2⟩
      · exact absurd heq.2.2.2 (by simp)
      · exact absurd heq.2.2.2 (by simp)
    · rintro ⟨htg, hstart, hsw⟩
      rw [find_vanity, List.mem_flatMap]
      refine ⟨t, htg, ?_⟩
      rw [mem_matchTarget]
      exact Or.inl ⟨by rw [hstart, hsw]; rfl, rfl⟩
  · constructor
    · intro hm
      rw [find_vanity, List.mem_flatMap] at hm
      obtain ⟨tg, htg, hmem⟩ := hm
      rw [mem_matchTarget] at hmem
      rcases hmem with ⟨hc, heq⟩ | ⟨hc, heq⟩ | ⟨i', h1, h2, h3, h4, heq⟩ <;>
        simp only [AddressMatch.mk.injEq] at heq
      · exact absurd heq.2.2.2 (by simp)
      · obtain ⟨rfl, -, -, -⟩ := heq
        rw [Bool.and_eq_true] at hc
        exact ⟨htg, hc.1, hc.2⟩
      · exact absurd heq.2.2.2 (by simp)
    · rintro ⟨htg, hend, hew⟩
      rw [find_vanity, List.mem_flatMap]
      refine ⟨t, htg, ?_⟩
      rw [mem_matchTarget]
      exact Or.inr (Or.inl ⟨by rw [hend, hew]; rfl, rfl⟩)
  · constructor
    · intro hm
      rw [find_vanity, List.mem_flatMap] at hm
      obtain ⟨tg, htg, hmem⟩ := hm
      rw [mem_matchTarget] at hmem
      rcases hmem with ⟨hc, heq⟩ | ⟨hc, heq⟩ | ⟨i', h1, h2, h3, h4, heq⟩ <;>
        simp only [AddressMatch.mk.injEq] at heq
      · exact absurd heq.2.2.2 (by simp)
      · exact absurd heq.2.2.2 (by simp)
      · obtain ⟨rfl, -, -, hany⟩ := heq
        simp only [Placement.Anywhere.injEq] at hany
        subst hany
        have hspec := (findSub_eq_some_iff acc.address t i).mp h4
        exact ⟨htg, h1, h2, h3, hspec.1, hspec.2⟩
    · rintro ⟨htg, hs, he, ha, hocc, hleast⟩
      rw [find_vanity, List.mem_flatMap]
      refine ⟨t, htg, ?_⟩
      rw [mem_matchTarget]
      exact Or.inr (Or.inr ⟨i, hs, he, ha,
        (findSub_eq_some_iff acc.address t i).mpr ⟨hocc, hleast⟩, rfl⟩)
  · intro m hm
    rw [find_vanity, List.mem_flatMap] at hm
    obtain ⟨tg, htg, hmem⟩ := hm
    rw [mem_matchTarget] at hmem
    rcases hmem with ⟨hc, rfl⟩ | ⟨hc, rfl⟩ | ⟨i', h1, h2, h3, h4, rfl⟩ <;>
      exact ⟨htg, rfl, rfl⟩

/-- Witness for C2: every event emitted for the candidate address `"ABCAB"`
against the single target `"AB"` names that target and carries that
address and mnemonic. -/
theorem C2_witness :
    (⟨['A', 'B'], ['A', 'B', 'C', 'A', 'B'], ['m'], Placement.Start⟩ : AddressMatch).target ∈
        [['A', 'B']] ∧
    (⟨['A', 'B'], ['A', 'B', 'C', 'A', 'B'], ['m'], Placement.Start⟩ : AddressMatch).public =
        ['A', 'B', 'C', 'A', 'B'] ∧
    (⟨['A', 'B'], ['A', 'B', 'C', 'A', 'B'], ['m'], Placement.Start⟩ : AddressMatch).mnemonic =
        ['m'] :=
  ( C2_theorem [['A', 'B']] ⟨['A', 'B', 'C', 'A', 'B'], ['m']⟩ ⟨true, true, true⟩
      ['A', 'B'] 0).2.2.2
    ⟨['A', 'B'], ['A', 'B', 'C', 'A', 'B'], ['m'], Placement.Start⟩ (by decide)

/-! ## The seed perturbation loop (claim C6) -/

lemma bumpAt_lt (s : Fin 32 → Nat) (i : Fin 32) (hs : ∀ k, s k < 256) :
    ∀ k, bumpAt s i k < 256 := by
  intro k
  unfold bumpAt
  by_cases hk : k = i
  · simp only [hk, if_pos rfl]
    exact Nat.mod_lt _ (by omega)
  · simp only [if_neg hk]
    exact hs k

/-- Iterating a single-byte bump `n` times adds `n` to that byte, modulo
256, and leaves every other byte alone. -/
lemma bump_iterate (i : Fin 32) (n : Nat) (s : Fin 32 → Nat) (hs : s i < 256) :
    (fun t => bumpAt t i)^[n] s = fun k => if k = i then (s k + n) % 256 else s k := by
  induction n with
  | zero =>
      funext k
      by_cases hk : k = i
      · subst hk
        simp [Nat.mod_eq_of_lt hs]
      · simp [hk]
  | succ n ih =>
      rw [Function.iterate_succ_apply', ih]
      funext k
      by_cases hk : k = i
      · subst hk
        simp [bumpAt]
        all_goals omega
      · simp [bumpAt, hk]

/-- One outer iteration adds 1 to byte `index0` and `COUNT_PER_LOOP` to
byte `index1`, modulo 256 (accumulating on the same byte when the two
indices coincide). -/
lemma outerStepSeed_apply (index0 index1 : Fin 32) (s : Fin 32 → Nat)
    (hs : ∀ k, s k < 256) :
    outerStepSeed index0 index1 s =
      fun k => (s k + (if k = index0 then 1 else 0) +
        (if k = index1 then COUNT_PER_LOOP else 0)) % 256 := by
  unfold outerStepSeed
  rw [bump_iterate index1 COUNT_PER_LOOP (bumpAt s index0) (bumpAt_lt s index0 hs index1)]
  funext k
  have hk := hs k
  by_cases h1 : k = index1
  · subst h1
    by_cases h0 : k = index0
    · subst h0
      simp [bumpAt, COUNT_PER_LOOP]
    · simp [bumpAt, h0, COUNT_PER_LOOP]
  · by_cases h0 : k = index0
    · subst h0
      simp [bumpAt, h1, COUNT_PER_LOOP]
    · simp [bumpAt, h0, h1, COUNT_PER_LOOP]
      all_goals omega

/-- `o` outer iterations add `o` to byte `index0` and `o·COUNT_PER_LOOP` to
byte `index1`, modulo 256. -/
lemma outerStep_iterate (index0 index1 : Fin 32) (s : Fin 32 → Nat)
    (hs : ∀ k, s k < 256) (o : Nat) :
    (outerStepSeed index0 index1)^[o] s =
      fun k => (s k + (if k = index0 then o else 0) +
        (if k = index1 then o * COUNT_PER_LOOP else 0)) % 256 := by
  induction o with
  | zero =>
      funext k
      have hk := hs k
      by_cases h1 : k = index1
      · subst h1
        by_cases h0 : k = index0
        · subst h0
          simp
          all_goals omega
        · simp [h0]
          all_goals omega
      · by_cases h0 : k = index0
        · subst h0
          simp [h1]
          all_goals omega
        · simp [h0, h1]
          all_goals omega
  | succ o ih =>
      rw [Function.iterate_succ_apply', ih,
        outerStepSeed_apply index0 index1 _
          (by intro k; exact Nat.mod_lt _ (by norm_num))]
      funext k
      have hk := hs k
      by_cases h1 : k = index1
      · subst h1
        by_cases h0 : k = index0
        · subst h0
          simp [COUNT_PER_LOOP]
          all_goals omega
        · simp [h0, COUNT_PER_LOOP]
          all_goals omega
      · by_cases h0 : k = index0
        · subst h0
          simp [h1, COUNT_PER_LOOP]
          all_goals omega
        · simp [h0, h1, COUNT_PER_LOOP]

/-- The seed used at step `(o, j)` of a reseed cycle equals its closed
form `usedSeedFormula`. -/
lemma usedSeedAt_closed (s : Fin 32 → Nat) (hs : ∀ k, s k < 256)
    (index0 index1 : Fin 32) (o j : Nat) :
    usedSeedAt s index0 index1 o j = usedSeedFormula s index0 index1 o j := by
  unfold usedSeedAt usedSeedFormula
  rw [outerStep_iterate index0 index1 s hs o,
    bump_iterate index1 (j + 1) _
      (bumpAt_lt _ index0 (by intro k; exact Nat.mod_lt _ (by norm_num)) index1)]
  funext k
  have hk := hs k
  by_cases h1 : k = index1
  · subst h1
    by_cases h0 : k = index0
    · subst h0
      simp [bumpAt, COUNT_PER_LOOP]
      all_goals omega
    · simp [bumpAt, h0, COUNT_PER_LOOP]
      all_goals omega
  · by_cases h0 : k = index0
    · subst h0
      simp [bumpAt, h1, COUNT_PER_LOOP]
      all_goals omega
    · simp [bumpAt, h0, h1, COUNT_PER_LOOP]

/-- C6: the claim is false when the two perturbation indices coincide — a
concrete duplicate: with the all-zero seed and `index0 = index1 = 0`, the
seed used at step `(o, j) = (0, 0)` equals the seed used at step
`(2, 54)` (the byte reaches 2 both times, 256 increments apart), although
both steps lie inside one `COUNT_PER_LOOP × COUNT_PER_LOOP` cycle. -/
theorem C6_counterexample :
    usedSeedAt (fun _ => 0) 0 0 0 0 = usedSeedAt (fun _ => 0) 0 0 2 54 ∧
    (0 : Nat) < COUNT_PER_LOOP ∧ (2 : Nat) < COUNT_PER_LOOP ∧
    (54 : Nat) < COUNT_PER_LOOP ∧ ¬((0 : Nat) = 2 ∧ (0 : Nat) = 54) := by
  refine ⟨?_, by decide, by decide, by decide, by decide⟩
  rw [usedSeedAt_closed _ (fun k => by norm_num) 0 0 0 0,
    usedSeedAt_closed _ (fun k => by norm_num) 0 0 2 54]
  decide

/-- C6 (amended): when the two randomly drawn byte indices differ
(`index0 ≠ index1`), the `COUNT_PER_LOOP × COUNT_PER_LOOP` seeds used in
one reseed cycle are pairwise distinct; when they coincide, duplicates can
occur (see the counterexample). -/
theorem C6_theorem (s : Fin 32 → Nat) (hs : ∀ k, s k < 256)
    (index0 index1 : Fin 32) (hne : index0 ≠ index1) (o j o' j' : Nat)
    (ho : o < COUNT_PER_LOOP) (hj : j < COUNT_PER_LOOP)
    (ho' : o' < COUNT_PER_LOOP) (hj' : j' < COUNT_PER_LOOP)
    (heq : usedSeedAt s index0 index1 o j = usedSeedAt s index0 index1 o' j') :
    o = o' ∧ j = j' := by
  rw [usedSeedAt_closed s hs, usedSeedAt_closed s hs] at heq
  have h0 := congrFun heq index0
  have h1 := congrFun heq index1
  simp [usedSeedFormula, hne, Ne.symm hne, COUNT_PER_LOOP] at h0 h1
  simp only [COUNT_PER_LOOP] at ho hj ho' hj'
  have hoo : o = o' := by omega
  subst hoo
  have hjj : j = j' := by omega
  exact ⟨rfl, hjj⟩

/-- Witness for C6 at a concrete input: all-zero seed, indices 0 and 1,
steps `(0, 1)` and `(0, 1)`. -/
theorem C6_witness : (0 : Nat) = 0 ∧ (1 : Nat) = 1 :=
  C6_theorem (fun _ => 0) (fun _ => by norm_num) 0 1 (by decide) 0 1 0 1
    (by decide) (by decide) (by decide) (by decide) rfl

/-! ## The smoothed-rate recurrence (claim C5) -/

lemma smoothedAfter_closed (n : Nat) :
    smoothedAfter n = 1000 - 1000 * (19 / 20 : ℚ) ^ n := by
  induction n with
  | zero => simp [smoothedAfter]
  | succ n ih =>
      rw [smoothedAfter, lpFilter, ih, pow_succ]
      ring

/-- C5: the claim as stated is false — after exactly 200 samples of
constant instantaneous rate 1000, the smoothed rate is still about 0.035
away from 1000, more than the claimed 1e-3 tolerance. -/
theorem C5_counterexample : |1000 - smoothedAfter 200| > 1 / 1000 := by
  have hpos : (0 : ℚ) < 1000 * (19 / 20 : ℚ) ^ 200 := by positivity
  rw [smoothedAfter_closed,
    show (1000 : ℚ) - (1000 - 1000 * (19 / 20 : ℚ) ^ 200) =
      1000 * (19 / 20 : ℚ) ^ 200 from by ring,
    abs_of_pos hpos]
  norm_num

/-- C5 (amended): starting from the initial smoothed rate of zero, applying
the exponential-smoothing update `lpFilter` 200 times with a constant total
instantaneous rate of 1000 brings the smoothed rate to within 5e-2 of 1000
(the 1e-3 tolerance of the original claim needs about 270 samples). -/
theorem C5_theorem : |1000 - smoothedAfter 200| < 5 / 100 := by
  have hpos : (0 : ℚ) < 1000 * (19 / 20 : ℚ) ^ 200 := by positivity
  rw [smoothedAfter_closed,
    show (1000 : ℚ) - (1000 - 1000 * (19 / 20 : ℚ) ^ 200) =
      1000 * (19 / 20 : ℚ) ^ 200 from by ring,
    abs_of_pos hpos]
  norm_num

/-! ## Claim C4: the count-event update -/

/-- C4: a count event `{id, elapsed}` updates the aggregator state exactly
as claimed: worker `id`'s last-known rate becomes `C×C / elapsed`
(`C = COUNT_PER_LOOP = 100`), the smoothed rate becomes
`old × 0.95 + (sum of all last-known rates) × 0.05`, the running total
grows by `C×C`, and nothing else changes. -/
theorem C4_theorem (once : Bool) (s : AggState) (id : Nat) (elapsed : ℚ)
    (h : id < s.rates.length) :
    mainLoopStep once s (.count id elapsed) =
      { s with
        totalCount := s.totalCount + COUNT_PER_LOOP * COUNT_PER_LOOP,
        rates := s.rates.set id (((COUNT_PER_LOOP * COUNT_PER_LOOP : Nat) : ℚ) / elapsed),
        searchRate := s.searchRate * (95 / 100) +
          (s.rates.set id (((COUNT_PER_LOOP * COUNT_PER_LOOP : Nat) : ℚ) / elapsed)).sum *
            (5 / 100) } ∧
    (mainLoopStep once s (.count id elapsed)).rates[id]? =
      some (((COUNT_PER_LOOP * COUNT_PER_LOOP : Nat) : ℚ) / elapsed) := by
  constructor
  · rfl
  · exact List.getElem?_set_eq_of_lt _ h

/-- Witness for C4 at a concrete state: one worker, elapsed half a second,
so the new rate is 20000 candidates per second. -/
theorem C4_witness :
    mainLoopStep false (initAgg [] 1) (.count 0 (1 / 2)) =
      { totalCount := 0 + COUNT_PER_LOOP * COUNT_PER_LOOP,
        matchCount := 0,
        searchRate := 0 * (95 / 100) +
          (((List.replicate 1 (0 : ℚ)).set 0
            (((COUNT_PER_LOOP * COUNT_PER_LOOP : Nat) : ℚ) / (1 / 2))).sum) * (5 / 100),
        rates := (List.replicate 1 (0 : ℚ)).set 0
          (((COUNT_PER_LOOP * COUNT_PER_LOOP : Nat) : ℚ) / (1 / 2)),
        targets := [],
        keepAlive := true,
        persisted := [] } ∧
    (mainLoopStep false (initAgg [] 1) (.count 0 (1 / 2))).rates[0]? =
      some (((COUNT_PER_LOOP * COUNT_PER_LOOP : Nat) : ℚ) / (1 / 2)) :=
  C4_theorem false (initAgg [] 1) 0 (1 / 2) (by simp [initAgg])

/-! ## Claim C8: emptying the active set clears the lifecycle flag -/

/-- The once-mode match branch of `mainLoopStep`, spelled out. -/
lemma mainLoopStep_match_once (s : AggState) (m : AddressMatch) :
    mainLoopStep true s (.addressMatch m) =
      match positionOf s.targets m.target with
      | some index =>
          let s' := transmit_match s m
          let s'' := { s' with targets := removeAt s'.targets index }
          if s''.targets = [] then { s'' with keepAlive := false } else s''
      | none => s := rfl

/-- C8: in once-mode, whenever processing a match event leaves the active
target set empty (having been nonempty before), the same processing step
clears the keep-alive flag. -/
theorem C8_theorem (s : AggState) (m : AddressMatch)
    (hne : s.targets ≠ [])
    (hempty : (mainLoopStep true s (.addressMatch m)).targets = []) :
    (mainLoopStep true s (.addressMatch m)).keepAlive = false := by
  cases hpos : positionOf s.targets m.target with
  | none =>
      rw [mainLoopStep_match_once, hpos] at hempty
      exact absurd hempty hne
  | some index =>
      rw [mainLoopStep_match_once, hpos] at hempty ⊢
      simp only [transmit_match] at hempty ⊢
      by_cases hnil : removeAt s.targets index = []
      · simp [hnil]
      · simp [hnil] at hempty

/-- Witness for C8: a single once-mode target is matched, the set empties,
and the flag is cleared in that same step. -/
theorem C8_witness :
    (mainLoopStep true (initAgg [['A']] 1)
      (.addressMatch ⟨['A'], ['A', 'B'], ['m'], .Start⟩)).keepAlive = false :=
  C8_theorem (initAgg [['A']] 1) ⟨['A'], ['A', 'B'], ['m'], .Start⟩
    (by decide) (by decide)

/-! ## Claim C7: persistence failure policy -/

/-- C7: the claim is false at a concrete input — a `File::create` failure
during the rewrite of an accepted match does not leave the run continuing:
the persistence thread panics (`expect("Unable to open file as writeable")`,
main.rs line 371), so no later match can retry the rewrite. -/
theorem C7_counterexample :
    rewriteRecords true false true = RewriteResult.panicked := rfl

/-- C7 (amended): a serialization failure during the rewrite for an
individual accepted match silently skips that rewrite (it is not logged)
and the run continues, the next accepted match retrying the full rewrite; a
file-create or write failure panics the persistence thread; a read/parse
failure of an existing record file at startup is fatal, while a successful
parse loads the records. -/
theorem C7_theorem (records : List AddressMatch) (createOk writeOk : Bool) :
    rewriteRecords false createOk writeOk = RewriteResult.skippedSilently ∧
    rewriteRecords true createOk writeOk =
      (if createOk && writeOk then RewriteResult.wrote else RewriteResult.panicked) ∧
    loadRecords (some none) createOk writeOk = LoadResult.panicked ∧
    loadRecords (some (some records)) createOk writeOk = LoadResult.loaded records := by
  refine ⟨rfl, ?_, rfl, rfl⟩
  cases createOk <;> cases writeOk <;> rfl

/-! ## Claim C9: configuration errors abort before startup -/

/-- C9: the claim is false in its exit-code half at a concrete input — a
requested thread count of 128 (the bound) aborts before any thread is
spawned, but via a bare `return` from `main` (main.rs line 117), so the
process exit status is 0, not a non-zero indication. -/
theorem C9_counterexample :
    mainStartup (some 128) none [['A']] false false false false (fun _ => none) =
      StartupOutcome.exit 0 := rfl

/-- C9 (amended): every configuration or pattern-file error — a thread
count at or above `MAX_THREADS`, a first argument that opens as a file but
does not parse, or a pattern character outside the 32-symbol alphabet
(whether the patterns came from the file or from the command line) — makes
`main` return before any worker, aggregator, printer or persistence thread
is spawned, but with process exit status 0 rather than a non-zero one. -/
theorem C9_theorem (threadsArg availPar : Option Nat) (first : List Char)
    (rest : List (List Char)) (sa aa ea oa : Bool)
    (fs : List Char → Option (Option (List (List Char)))) :
    (badThreadCount threadsArg = true →
      mainStartup threadsArg availPar (first :: rest) sa aa ea oa fs =
        StartupOutcome.exit 0) ∧
    (badThreadCount threadsArg = false → fs first = some none →
      mainStartup threadsArg availPar (first :: rest) sa aa ea oa fs =
        StartupOutcome.exit 0) ∧
    (∀ fromFile, badThreadCount threadsArg = false → fs first = some (some fromFile) →
      validPatterns (upperAll fromFile) = false →
      mainStartup threadsArg availPar (first :: rest) sa aa ea oa fs =
        StartupOutcome.exit 0) ∧
    (badThreadCount threadsArg = false → fs first = none →
      validPatterns (upperAll (first :: rest)) = false →
      mainStartup threadsArg availPar (first :: rest) sa aa ea oa fs =
        StartupOutcome.exit 0) := by
  refine ⟨fun hbad => ?_, fun hok hfs => ?_, fun fromFile hok hfs hval => ?_,
    fun hok hfs hval => ?_⟩
  · simp [mainStartup, hbad]
  · simp [mainStartup, hok, hfs]
  · simp [mainStartup, hok, hfs, hval]
  · simp [mainStartup, hok, hfs, hval]

/-- Witness for C9: an invalid pattern character (`'0'` is not in the
Algorand alphabet) aborts with exit status 0. -/
theorem C9_witness :
    mainStartup none none [['0']] false false false false (fun _ => none) =
      StartupOutcome.exit 0 :=
  (C9_theorem none none ['0'] [] false false false false (fun _ => none)).2.2.2
    (by decide) rfl (by decide)

/-! ## Claim C10: file patterns replace the command line -/

/-- C10: if the first pattern argument opens and parses as a JSON array of
strings, the whole pattern list is replaced by the (uppercased) file
contents — the path token and every later command-line pattern are
discarded — and only the first argument is ever tried as a file path. -/
theorem C10_theorem (threadsArg availPar : Option Nat) (first : List Char)
    (rest rest' : List (List Char)) (sa aa ea oa : Bool)
    (fs fs' : List Char → Option (Option (List (List Char))))
    (fromFile : List (List Char)) :
    (fs first = some (some fromFile) →
      mainStartup threadsArg availPar (first :: rest) sa aa ea oa fs =
        mainStartup threadsArg availPar (first :: rest') sa aa ea oa fs) ∧
    (fs first = some (some fromFile) →
      ∀ patterns,
        outcomePatterns (mainStartup threadsArg availPar (first :: rest) sa aa ea oa fs) =
          some patterns →
        patterns = upperAll fromFile) ∧
    (fs first = fs' first →
      mainStartup threadsArg availPar (first :: rest) sa aa ea oa fs =
        mainStartup threadsArg availPar (first :: rest) sa aa ea oa fs') := by
  refine ⟨fun hfs => ?_, fun hfs patterns => ?_, fun hagree => ?_⟩
  · simp [mainStartup, hfs]
  · by_cases hbad : badThreadCount threadsArg
    · simp [mainStartup, hbad, outcomePatterns]
    · simp only [mainStartup, hbad, if_false, Bool.false_eq_true, hfs]
      by_cases hval : validPatterns (upperAll fromFile)
      · simp [hval, outcomePatterns]
        intro h
        exact h.symm
      · simp [hval, outcomePatterns]
  · by_cases hbad : badThreadCount threadsArg
    · simp [mainStartup, hbad]
    · simp only [mainStartup, hbad, if_false, Bool.false_eq_true, ← hagree]

/-- Witness for C10: with a first argument parsing to the single pattern
`["ab"]`, the extra command-line pattern `["ZZ"]` is discarded: the outcome
is the same as with no extra pattern at all. -/
theorem C10_witness :
    mainStartup none none [['f'], ['Z', 'Z']] false false false false
      (fun _ => some (some [['a', 'b']])) =
    mainStartup none none [['f']] false false false false
      (fun _ => some (some [['a', 'b']])) :=
  (C10_theorem none none ['f'] [['Z', 'Z']] [] false false false false
    (fun _ => some (some [['a', 'b']])) (fun _ => some (some [['a', 'b']]))
    [['a', 'b']]).1 rfl

/-! ## Once-mode exactly-once acceptance (claim C1) -/

lemma positionOf_of_not_mem :
    ∀ (l : List (List Char)) (t : List Char), t ∉ l → positionOf l t = none := by
  intro l
  induction l with
  | nil => intro t _; rfl
  | cons a l ih =>
      intro t ht
      have ha : ¬(a = t) := fun h => ht (by rw [h]; exact List.mem_cons_self t l)
      have ht' : t ∉ l := fun h => ht (List.mem_cons_of_mem a h)
      simp [positionOf, ha, ih t ht']

lemma positionOf_of_mem :
    ∀ (l : List (List Char)) (t : List Char), t ∈ l → ∃ i, positionOf l t = some i := by
  intro l
  induction l with
  | nil => intro t ht; exact absurd ht (List.not_mem_nil t)
  | cons a l ih =>
      intro t ht
      by_cases ha : a = t
      · exact ⟨0, by simp [positionOf, ha]⟩
      · have ht' : t ∈ l := by
          rcases List.mem_cons.mp ht with h | h
          · exact absurd h.symm ha
          · exact h
        obtain ⟨i, hi⟩ := ih t ht'
        exact ⟨i + 1, by simp [positionOf, ha, hi]⟩

lemma positionOf_spec :
    ∀ (l : List (List Char)) (t : List Char) (i : Nat), positionOf l t = some i →
      t ∈ l ∧ (l.Nodup → t ∉ removeAt l i) := by
  intro l
  induction l with
  | nil => intro t i h; exact absurd h (by simp [positionOf])
  | cons a l ih =>
      intro t i h
      by_cases ha : a = t
      · have hi : i = 0 := by
          simp [positionOf, ha] at h
          omega
        subst hi
        subst ha
        refine ⟨List.mem_cons_self a l, fun hnodup => ?_⟩
        show a ∉ l
        exact (List.nodup_cons.mp hnodup).1
      · simp only [positionOf, if_neg ha, Option.map_eq_some'] at h
        obtain ⟨i', hi', rfl⟩ := h
        obtain ⟨hmem, hrem⟩ := ih t i' hi'
        refine ⟨List.mem_cons_of_mem a hmem, fun hnodup => ?_⟩
        show t ∉ a :: removeAt l i'
        intro hc
        rcases List.mem_cons.mp hc with hc | hc
        · exact ha hc.symm
        · exact hrem (List.nodup_cons.mp hnodup).2 hc

lemma removeAt_subset :
    ∀ (l : List (List Char)) (i : Nat) (x : List Char), x ∈ removeAt l i → x ∈ l := by
  intro l
  induction l with
  | nil => intro i x hx; simp [removeAt] at hx
  | cons a l ih =>
      intro i x hx
      cases i with
      | zero => exact List.mem_cons_of_mem a hx
      | succ n =>
          rcases List.mem_cons.mp hx with hx | hx
          · rw [hx]; exact List.mem_cons_self a l
          · exact List.mem_cons_of_mem a (ih n x hx)

lemma removeAt_nodup :
    ∀ (l : List (List Char)) (i : Nat), l.Nodup → (removeAt l i).Nodup := by
  intro l
  induction l with
  | nil => intro i _; exact List.nodup_nil
  | cons a l ih =>
      intro i hnodup
      obtain ⟨ha, hl⟩ := List.nodup_cons.mp hnodup
      cases i with
      | zero => exact hl
      | succ n =>
          refine List.nodup_cons.mpr ⟨fun hc => ha (removeAt_subset l n a hc), ih n hl⟩

lemma countTarget_append_single (t : List Char) (l : List AddressMatch) (m : AddressMatch) :
    countTarget t (l ++ [m]) = countTarget t l + (if m.target = t then 1 else 0) := by
  unfold countTarget
  rw [List.filter_append, List.length_append]
  by_cases h : m.target = t
  · simp [h]
  · simp [h]

lemma countTarget_nil (t : List Char) : countTarget t [] = 0 := rfl

/-- One once-mode aggregator step preserves the invariant. -/
lemma onceStep_inv (initial : List (List Char)) (s : AggState) (msg : WorkerMsg)
    (h : OnceInv initial s) : OnceInv initial (mainLoopStep true s msg) := by
  cases msg with
  | count id elapsed => exact h
  | addressMatch m =>
      rw [mainLoopStep_match_once]
      cases hpos : positionOf s.targets m.target with
      | none => exact h
      | some index =>
          obtain ⟨hcount, hnodup, hsub, hle1, hmem0, hout0⟩ := h
          obtain ⟨htmem, hnotin⟩ := positionOf_spec s.targets m.target index hpos
          have hcore : OnceInv initial
              { s with matchCount := s.matchCount + 1,
                       persisted := s.persisted ++ [m],
                       targets := removeAt s.targets index } := by
            refine ⟨?_, ?_, ?_, ?_, ?_, ?_⟩
            · show s.matchCount + 1 = (s.persisted ++ [m]).length
              rw [List.length_append, hcount]
              rfl
            · exact removeAt_nodup s.targets index hnodup
            · exact fun t ht => hsub t (removeAt_subset s.targets index t ht)
            · intro t
              rw [countTarget_append_single]
              by_cases hmt : m.target = t
              · rw [if_pos hmt, ← hmt, hmem0 m.target htmem]
              · rw [if_neg hmt, Nat.add_zero]
                exact hle1 t
            · intro t ht
              rw [countTarget_append_single]
              have hmt : ¬(m.target = t) := by
                intro hc
                rw [hc] at hnotin
                exact hnotin hnodup ht
              rw [if_neg hmt, Nat.add_zero]
              exact hmem0 t (removeAt_subset s.targets index t ht)
            · intro t ht
              rw [countTarget_append_single]
              have hmt : ¬(m.target = t) := by
                intro hc
                exact ht (hc ▸ hsub m.target htmem)
              rw [if_neg hmt, Nat.add_zero]
              exact hout0 t ht
          dsimp only
          split
          · exact hcore
          · exact hcore

/-- The once-mode receive loop preserves the invariant across any queue of
worker messages. -/
lemma onceRun_inv (initial : List (List Char)) (s : AggState) (msgs : List WorkerMsg)
    (h : OnceInv initial s) : OnceInv initial (mainLoopRun true s msgs) := by
  induction msgs generalizing s with
  | nil => exact h
  | cons msg rest ih =>
      show OnceInv initial (if s.keepAlive then _ else s)
      by_cases hka : s.keepAlive
      · rw [if_pos hka]
        exact ih (mainLoopStep true s msg) (onceStep_inv initial s msg h)
      · rw [if_neg hka]
        exact h

lemma onceInv_init (tgts : List (List Char)) (n : Nat) (h : tgts.Nodup) :
    OnceInv tgts (initAgg tgts n) :=
  ⟨rfl, h, fun _ ht => ht, fun _ => Nat.le_of_eq (countTarget_nil _) |>.trans (Nat.zero_le 1),
    fun t _ => countTarget_nil t, fun t _ => countTarget_nil t⟩

/-- C1: in once-mode, over any queue of worker messages, each target is
accepted at most once: processing from the initial state, no target is ever
persisted twice, the match count always equals the number of persisted
matches (so nothing is counted without being persisted and vice versa), a
target absent from the configuration is never persisted; and at step level,
a match whose target is still active is counted once, forwarded once, and
its target removed, while a match whose target is no longer active (for
example already satisfied by a racing worker) leaves the aggregator state
exactly unchanged. -/
theorem C1_theorem (tgts : List (List Char)) (hnodup : tgts.Nodup) (n : Nat)
    (msgs : List WorkerMsg) (t : List Char) :
    countTarget t (mainLoopRun true (initAgg tgts n) msgs).persisted ≤ 1 ∧
    (mainLoopRun true (initAgg tgts n) msgs).matchCount =
      (mainLoopRun true (initAgg tgts n) msgs).persisted.length ∧
    (t ∉ tgts → countTarget t (mainLoopRun true (initAgg tgts n) msgs).persisted = 0) ∧
    (∀ (s : AggState) (m : AddressMatch), m.target ∈ s.targets → s.targets.Nodup →
      (mainLoopStep true s (.addressMatch m)).persisted = s.persisted ++ [m] ∧
      (mainLoopStep true s (.addressMatch m)).matchCount = s.matchCount + 1 ∧
      m.target ∉ (mainLoopStep true s (.addressMatch m)).targets) ∧
    (∀ (s : AggState) (m : AddressMatch), m.target ∉ s.targets →
      mainLoopStep true s (.addressMatch m) = s) := by
  have hrun := onceRun_inv tgts (initAgg tgts n) msgs (onceInv_init tgts n hnodup)
  obtain ⟨h1, h2, h3, h4, h5, h6⟩ := hrun
  refine ⟨h4 t, h1, fun ht => h6 t ht, ?_, ?_⟩
  · intro s m hmem hnd
    obtain ⟨index, hpos⟩ := positionOf_of_mem s.targets m.target hmem
    obtain ⟨-, hnotin⟩ := positionOf_spec s.targets m.target index hpos
    rw [mainLoopStep_match_once, hpos]
    dsimp only
    constructor
    · split <;> rfl
    · constructor
      · split <;> rfl
      · split
        · exact fun hc => hnotin hnd hc
        · exact fun hc => hnotin hnd hc
  · intro s m hnm
    rw [mainLoopStep_match_once, positionOf_of_not_mem s.targets m.target hnm]

/-- Witness for C1: a concrete once-mode run where the same target is
reported twice; it is persisted only once and the second report leaves the
state unchanged. -/
theorem C1_witness :
    countTarget ['A'] (mainLoopRun true (initAgg [['A']] 1)
      [.addressMatch ⟨['A'], ['A', 'B'], ['m'], .Start⟩,
       .addressMatch ⟨['A'], ['A', 'C'], ['m'], .Start⟩]).persisted ≤ 1 :=
  ( C1_theorem [['A']] (by decide) 1
    [.addressMatch ⟨['A'], ['A', 'B'], ['m'], .Start⟩,
     .addressMatch ⟨['A'], ['A', 'C'], ['m'], .Start⟩] ['A']).1

/-! ## Worker target-list staleness (claim C3) -/

lemma innerIter_succ_snd (index1 : Fin 32) (key : (Fin 32 → Nat) → Account)
    (targets : List (List Char)) (placement : SearchPlacement) (n : Nat)
    (st : Fin 32 → Nat) :
    (innerIter index1 key targets placement (n + 1) st).2 =
      find_vanity targets (key (bumpAt st index1)) placement ++
        (innerIter index1 key targets placement n (bumpAt st index1)).2 := rfl

lemma outerIter_succ_snd (index0 index1 : Fin 32) (key : (Fin 32 → Nat) → Account)
    (targets : List (List Char)) (placement : SearchPlacement) (n : Nat)
    (st : Fin 32 → Nat) :
    (outerIter index0 index1 key targets placement (n + 1) st).2 =
      (innerIter index1 key targets placement COUNT_PER_LOOP (bumpAt st index0)).2 ++
        (outerIter index0 index1 key targets placement n
          (innerIter index1 key targets placement COUNT_PER_LOOP (bumpAt st index0)).1).2 :=
  rfl

lemma innerIter_nil_targets (index1 : Fin 32) (key : (Fin 32 → Nat) → Account)
    (placement : SearchPlacement) :
    ∀ (n : Nat) (st : Fin 32 → Nat), (innerIter index1 key [] placement n st).2 = [] := by
  intro n
  induction n with
  | zero => intro st; rfl
  | succ n ih =>
      intro st
      rw [innerIter_succ_snd, ih]
      rfl

lemma outerIter_nil_targets (index0 index1 : Fin 32) (key : (Fin 32 → Nat) → Account)
    (placement : SearchPlacement) :
    ∀ (n : Nat) (st : Fin 32 → Nat), (outerIter index0 index1 key [] placement n st).2 = [] := by
  intro n
  induction n with
  | zero => intro st; rfl
  | succ n ih =>
      intro st
      rw [outerIter_succ_snd, innerIter_nil_targets, ih]
      rfl

/-- C3: the claim is false — the worker never re-reads any shared target
list. `thread_worker` receives a clone of the targets made before spawning
(main.rs line 175) and owns it unchanged for its whole life, so its view
can lag the aggregator's active set forever, not by at most one cycle.
Concretely: with once-mode target `"AAAA"` and a KeyProvider constantly
deriving the address `"AAAA"`, one accepted match empties the aggregator's
active set, yet a worker reseed cycle run with its spawn-time list still
emits matches for the removed target (any number of cycles later), while a
cycle over the actual active list (now empty) would emit none. -/
theorem C3_counterexample :
    (mainLoopStep true (initAgg [['A', 'A', 'A', 'A']] 1)
        (.addressMatch ⟨['A', 'A', 'A', 'A'], ['A', 'A', 'A', 'A'], ['m'], .Start⟩)).targets =
      [] ∧
    workerCycle (fun _ => ⟨['A', 'A', 'A', 'A'], ['m']⟩) [['A', 'A', 'A', 'A']]
        ⟨true, false, false⟩ ⟨fun _ => 0, 0, 0⟩ ≠ [] ∧
    workerCycle (fun _ => ⟨['A', 'A', 'A', 'A'], ['m']⟩) []
        ⟨true, false, false⟩ ⟨fun _ => 0, 0, 0⟩ = [] := by
  refine ⟨by decide, ?_, ?_⟩
  · show (outerIter 0 0 _ _ _ COUNT_PER_LOOP _).2 ≠ []
    intro hc
    rw [show COUNT_PER_LOOP = 99 + 1 from rfl, outerIter_succ_snd] at hc
    obtain ⟨hinner, -⟩ := List.append_eq_nil.mp hc
    rw [show COUNT_PER_LOOP = 99 + 1 from rfl, innerIter_succ_snd] at hinner
    obtain ⟨hfv, -⟩ := List.append_eq_nil.mp hinner
    exact absurd hfv (by decide)
  · show (outerIter 0 0 _ _ _ COUNT_PER_LOOP _).2 = []
    exact outerIter_nil_targets 0 0 _ _ COUNT_PER_LOOP _

/-- C3 (amended): a worker never refreshes its target list: every reseed
cycle of `workerRun` matches candidates against the same spawn-time list,
independently of the cycle index and of any once-mode removals the
aggregator performs meanwhile; the staleness of a worker's view of the
active target set is therefore unbounded (the aggregator's once-mode
filtering, claim C1, is what drops the resulting stale matches). -/
theorem C3_theorem (key : (Fin 32 → Nat) → Account) (targets : List (List Char))
    (placement : SearchPlacement) (cycles : List CycleInput) (n : Nat) :
    (workerRun key targets placement cycles)[n]? =
      (cycles[n]?).map (workerCycle key targets placement) := by
  unfold workerRun
  exact List.getElem?_map (workerCycle key targets placement) cycles n

end AlgoVanity
